import Mathlib

/-!
Shallow embedding of the font-handling core of `greentea_auto.py` from the
GreenTea encoding pipeline, together with theorems settling the
specification claims C1-C10.  Each definition mirrors one Python function
of the source file; strings are modelled as `List Char` where character
level scanning matters and as `String` elsewhere.  Unicode-category details
of Python regexes (`\w`, `\d`, `\s`) are modelled at their ASCII core,
which is what every claim exercises.
-/

namespace GreenTea

/-- ASCII whitespace characters stripped by Python `str.strip()`
(the model restricts Python's whitespace set to its ASCII part). -/
def pySpace (c : Char) : Bool :=
  c == ' ' || c == '\t' || c == '\n' || c == '\r' || c == '\x0b' || c == '\x0c'

/-- Python `str.strip()`: drop whitespace from both ends. -/
def strip (s : List Char) : List Char :=
  ((s.dropWhile pySpace).reverse.dropWhile pySpace).reverse

/-- Characters of the regex class `[A-Za-z0-9._-]` used at line 126 of
`greentea_auto.py` (`re.sub(r"[^A-Za-z0-9._-]+", "_", real)`). -/
def okChar (c : Char) : Bool :=
  c.isAlphanum || c == '.' || c == '_' || c == '-'

/-- Streaming form of `re.sub(r"[^A-Za-z0-9._-]+", "_", real)`: the `+`
in the pattern makes a whole maximal run of characters outside the class
one match, replaced by a single `_`.  The Boolean state records whether
the previous character belonged to such a run, so that only the first
character of a run emits the underscore. -/
def sanitizeAux : Bool → List Char → List Char
  | _, [] => []
  | inRun, c :: rest =>
    if okChar c then c :: sanitizeAux false rest
    else if inRun then sanitizeAux true rest
    else '_' :: sanitizeAux true rest

/-- Embedding of line 126 of `greentea_auto.py`:
`real = re.sub(r"[^A-Za-z0-9._-]+", "_", real)`. -/
def sanitize (s : List Char) : List Char :=
  sanitizeAux false s

/-- One record of a font name table: fontTools exposes records keyed by
(nameID, platformID, platEncID, langID) with a decoded string value. -/
structure NameRecord where
  nameID : Nat
  platformID : Nat
  platEncID : Nat
  langID : Nat
  value : String
deriving DecidableEq, Repr

/-- Embedding of fontTools `name_table.getName(n, p, e, l)`: the first
record matching all four keys, if any. -/
def getName (recs : List NameRecord) (n p e l : Nat) : Option NameRecord :=
  recs.find? (fun r =>
    r.nameID == n && r.platformID == p && r.platEncID == e && r.langID == l)

/-- Embedding of the name choice in `split_ttc_to_ttfs` (lines 115-124):
`ps = getName(6,3,1,1033)`, `full = getName(4,3,1,1033)`,
`if ps: real = ps.toStr() elif full: real = full.toStr() else: stem_unknown`.
A fontTools NameRecord has no `__bool__`, so `if ps:` tests only that the
record is present, not that its decoded string is non-empty. -/
def chooseReal (stem : String) (recs : List NameRecord) : String :=
  match getName recs 6 3 1 1033 with
  | some ps => ps.value
  | none =>
    match getName recs 4 3 1 1033 with
    | some full => full.value
    | none => stem ++ "_unknown"

/-- Output file name `{real}.ttf` after sanitization, as written by
`split_ttc_to_ttfs` for one embedded font. -/
def outName (stem : String) (recs : List NameRecord) : String :=
  String.mk (sanitize (chooseReal stem recs).toList) ++ ".ttf"

/-- One embedded font of a TTC container, reduced to its name table
(the only part the splitter's naming logic reads). -/
structure EmbeddedFont where
  recs : List NameRecord
deriving DecidableEq

/-- Output paths produced by `split_ttc_to_ttfs` for a container with the
given stem, in container order. -/
def splitPaths (stem : String) (fonts : List EmbeddedFont) : List String :=
  fonts.map (fun f => outName stem f.recs)

/-- One candidate file of the font pool, as seen by `subset_fonts`:
its filename stem and extension, and the name set read by
`get_font_internal_names` (all decodable records of the name table). -/
structure FontFile where
  stem : String
  ext : String
  names : Finset String
deriving DecidableEq

/-- Embedding of line 149 of `greentea_auto.py`:
`match = any(name in used_fonts for name in internal_names)` — existence of
one internal name that is an exact member of the used-font set. -/
def fontMatches (names used : Finset String) : Bool :=
  decide (∃ n ∈ names, n ∈ used)

/-- ASCII lower-casing of one character, as `str.lower()` acts on the
ASCII range relevant to file extensions. -/
def lowerChar (c : Char) : Char :=
  if 'A' ≤ c ∧ c ≤ 'Z' then Char.ofNat (c.toNat + 32) else c

/-- ASCII `str.lower()` over a whole string. -/
def lowerStr (s : String) : String :=
  String.mk (s.toList.map lowerChar)

/-- Extension filter of `subset_fonts` line 144:
`font_path.suffix.lower() in (".ttf", ".otf")`. -/
def admissibleExt (e : String) : Bool :=
  lowerStr e == ".ttf" || lowerStr e == ".otf"

/-- Embedding of the loop of `subset_fonts` (lines 143-170) over the sorted
pool list.  Returns the artifact names written, in order, paired with the
stem of the first font whose `pyftsubset` call failed, if any: the Python
loop runs `subprocess.run(cmd, check=True)`, so a tool failure raises
`CalledProcessError` at once and no later font of the batch is attempted.
`toolOk` models the external tool's success on a given source font stem. -/
def subsetFonts (toolOk : String → Bool) (used : Finset String) :
    List FontFile → List String × Option String
  | [] => ([], none)
  | f :: rest =>
    if admissibleExt f.ext then
      if fontMatches f.names used then
        if toolOk f.stem then
          let r := subsetFonts toolOk used rest
          ((f.stem ++ ".subset" ++ f.ext) :: r.1, r.2)
        else ([], some f.stem)
      else subsetFonts toolOk used rest
    else subsetFonts toolOk used rest

/-- Character scan of one subtitle line in `collect_chars_from_ass`
(lines 183-186): every character with `ord(ch) >= 32` is added. -/
def lineChars (line : List Char) (acc : Finset Char) : Finset Char :=
  line.foldr (fun ch a => if 32 ≤ ch.toNat then insert ch a else a) acc

/-- Scan of the whole subtitle corpus, line by line. -/
def scanChars : List (List Char) → Finset Char
  | [] => ∅
  | line :: rest => lineChars line (scanChars rest)

/-- The fixed ASCII floor added at lines 189-190:
`for i in range(0x20, 0x7F): chars.add(chr(i))`. -/
def asciiPrintable : Finset Char :=
  ((List.range 95).map (fun i => Char.ofNat (32 + i))).toFinset

/-- GlyphRequirementSet of `collect_chars_from_ass`: observed characters
with code point at least 0x20, together with the ASCII printable range. -/
def collectChars (lines : List (List Char)) : Finset Char :=
  scanChars lines ∪ asciiPrintable

/-- Serialized `chars.txt` blob, line 194:
`f.write("".join(sorted(chars)))` — the characters sorted by code point. -/
def charsBlobOf (lines : List (List Char)) : List Char :=
  (collectChars lines).sort (fun a b => a ≤ b)

/-- Embedding of `style_re.match(line)` for
`re.compile(r"Style:\s*[^,]+,([^,]+)")` with anchored `match`: the line
must begin with `Style:`, then hold a non-empty comma-free first field, a
comma, and a non-empty comma-free capture (the regex engine lets `[^,]+`
absorb the `\s*` prefix, so the first field is simply the maximal
comma-free run after `Style:`, required non-empty).  Returns the raw
captured second field. -/
def styleArg (line : List Char) : Option (List Char) :=
  if line.take 6 = "Style:".toList then
    let rest := line.drop 6
    let fld1 := rest.takeWhile (fun c => c != ',')
    let r1 := rest.dropWhile (fun c => c != ',')
    if fld1.isEmpty then none
    else
      match r1 with
      | [] => none
      | _ :: r2 =>
        let fld2 := r2.takeWhile (fun c => c != ',')
        if fld2.isEmpty then none else some fld2
  else none

/-- Characters admitted inside a `\fn` argument by the capture class
`[^\\}]+` of `override_re`. -/
def goodFnChar (c : Char) : Bool :=
  c != '\\' && c != '}'

/-- Fuelled scan behind `fnArgs`: every recursive call consumes at least
one character, so fuel equal to the list length always suffices. -/
def fnArgsF : Nat → List Char → List (List Char)
  | 0, _ => []
  | _ + 1, [] => []
  | fuel + 1, c :: rest =>
    if c = '\\' ∧ rest.take 2 = ['f', 'n'] then
      let cap := (rest.drop 2).takeWhile goodFnChar
      if cap.isEmpty then fnArgsF fuel rest
      else cap :: fnArgsF fuel ((rest.drop 2).drop cap.length)
    else fnArgsF fuel rest

/-- Embedding of `override_re.findall(line)` for
`re.compile(r"\\fn([^\\}]+)")`: left-to-right non-overlapping scan; at a
literal `\fn` the maximal run of characters that are neither `\` nor `}`
is captured when non-empty, and scanning resumes after the capture;
otherwise the scan advances by one character. -/
def fnArgs (l : List Char) : List (List Char) :=
  fnArgsF l.length l

/-- Per-line contribution of `extract_used_fonts_from_ass` (lines 75-84):
the stripped style field, if the style regex matches, together with the
stripped argument of every `\fn` override found in the line. -/
def lineFonts (line : List Char) : Finset String :=
  (match styleArg line with
   | some a => {String.mk (strip a)}
   | none => ∅)
  ∪ ((fnArgs line).map (fun a => String.mk (strip a))).toFinset

/-- UsedFontNameSet of `extract_used_fonts_from_ass`: the union of every
line's contributions over the whole corpus (a Python `set`). -/
def extractUsedFonts (lines : List (List Char)) : Finset String :=
  lines.foldr (fun l acc => lineFonts l ∪ acc) ∅

/-- ASCII word characters of the regex `\b` boundary (the model restricts
Python's `\w` to its ASCII part). -/
def isWordChar (c : Char) : Bool :=
  c.isAlphanum || c == '_'

/-- A `\b` word boundary holds next to a digit exactly when the adjacent
character is absent or not a word character. -/
def bdryOk : Option Char → Bool
  | none => true
  | some c => !(isWordChar c)

/-- Attempted match of `\b(\d{2,3})\b` at one position, `prev` being the
character just before the position: greedy three digits first, then two,
each requiring a word boundary on both sides. -/
def numAt (prev : Option Char) (l : List Char) : Option (List Char) :=
  match l with
  | d1 :: d2 :: rest =>
    if bdryOk prev && d1.isDigit && d2.isDigit then
      match rest with
      | [] => some [d1, d2]
      | d3 :: rest2 =>
        if d3.isDigit then
          if bdryOk rest2.head? then some [d1, d2, d3] else none
        else if !(isWordChar d3) then some [d1, d2] else none
    else none
  | _ => none

/-- Embedding of `re.search(r"\b(\d{2,3})\b", name)`: try every position
left to right, keeping the first successful match. -/
def searchNum : Option Char → List Char → Option (List Char)
  | _, [] => none
  | prev, c :: rest =>
    match numAt prev (c :: rest) with
    | some m => some m
    | none => searchNum (some c) rest

/-- Python `str.zfill(2)`: pad on the left with `0` to width two. -/
def zfill2 (s : List Char) : List Char :=
  List.replicate (2 - s.length) '0' ++ s

/-- Embedding of `guess_episode_number` (lines 215-217):
`m = re.search(r"\b(\d{2,3})\b", name); return m.group(1).zfill(2) if m
else "01"`. -/
def guessEp (name : String) : String :=
  match searchNum none name.toList with
  | some ds => String.mk (zfill2 ds)
  | none => "01"

/-- Embedding of `get_episode_font_dir` (lines 58-64): the directory
`fonts_sub/E{ep}` owned by one episode. -/
def episodeFontDir (ep : String) : String :=
  "fonts_sub/E" ++ ep

/-- The data computed by the font-preparation slice of
`process_one_episode` (lines 316-333) before encoding starts. -/
structure EpisodePrep where
  ep : String
  fontDir : String
  usedFonts : Finset String
  blob : List Char

/-- Embedding of the font-preparation slice of `process_one_episode`: the
episode number is guessed from the raw file stem, while the used-font set
and the `chars.txt` blob are computed from the shared subtitle corpus
`ASS_DIR`, not from anything episode-specific. -/
def processPrep (rawStem : String) (corpus : List (List Char)) : EpisodePrep :=
  let e := guessEp rawStem
  { ep := e
    fontDir := episodeFontDir e
    usedFonts := extractUsedFonts corpus
    blob := charsBlobOf corpus }

/-- Claim C7's reading of the sanitizer, written out for comparison with
the code: every single character outside the class becomes one
underscore, so k consecutive disallowed characters yield k underscores. -/
def sanitizeSpecPerChar (s : List Char) : List Char :=
  s.map (fun c => if okChar c then c else '_')

/-- Claim C6's reading of the name choice, written out for comparison
with the code: the PostScript record is used only when present and
decoding to a non-empty string; otherwise the Full Name record when
present; otherwise the synthesized fallback. -/
def chooseRealSpecNE (stem : String) (recs : List NameRecord) : String :=
  match getName recs 6 3 1 1033 with
  | some ps =>
    if ps.value = "" then
      match getName recs 4 3 1 1033 with
      | some full => full.value
      | none => stem ++ "_unknown"
    else ps.value
  | none =>
    match getName recs 4 3 1 1033 with
    | some full => full.value
    | none => stem ++ "_unknown"

/-! ## Helper lemmas -/

theorem takeWhile_append_all (p : Char → Bool) (l1 l2 : List Char)
    (h : ∀ c ∈ l1, p c = true)
    (h2 : l2 = [] ∨ ∃ d t, l2 = d :: t ∧ p d = false) :
    (l1 ++ l2).takeWhile p = l1 := by
  induction l1 with
  | nil =>
    rcases h2 with h2 | ⟨d, t, rfl, hd⟩
    · simp [h2]
    · simp [List.takeWhile_cons, hd]
  | cons c l ih =>
    have hc : p c = true := h c (List.mem_cons_self c l)
    have ih2 := ih (fun x hx => h x (List.mem_cons_of_mem c hx))
    simp [List.takeWhile_cons, hc, ih2]

theorem takeWhile_append_bad (p : Char → Bool) (l1 : List Char) {d : Char}
    {t : List Char} (hd : p d = false) :
    (l1 ++ d :: t).takeWhile p = l1.takeWhile p := by
  induction l1 with
  | nil => simp [List.takeWhile_cons, hd]
  | cons c l ih =>
    simp only [List.cons_append, List.takeWhile_cons]
    cases hpc : p c with
    | true => rw [ih]
    | false => rfl

theorem dropWhile_append_all (p : Char → Bool) (l1 : List Char) {d : Char}
    {t : List Char} (h : ∀ c ∈ l1, p c = true) (hd : p d = false) :
    (l1 ++ d :: t).dropWhile p = d :: t := by
  induction l1 with
  | nil => simp [List.dropWhile_cons, hd]
  | cons c l ih =>
    have hc : p c = true := h c (List.mem_cons_self c l)
    simp only [List.cons_append, List.dropWhile_cons, hc, if_true]
    exact ih (fun x hx => h x (List.mem_cons_of_mem c hx))

theorem sanitizeAux_good (g r : List Char) (hg : ∀ c ∈ g, okChar c = true) :
    sanitizeAux false (g ++ r) = g ++ sanitizeAux false r := by
  induction g with
  | nil => rfl
  | cons c g ih =>
    have hc : okChar c = true := hg c (List.mem_cons_self c g)
    have ih2 := ih (fun x hx => hg x (List.mem_cons_of_mem c hx))
    simp [sanitizeAux, hc, ih2]

theorem sanitizeAux_skip (b t : List Char) (hb : ∀ c ∈ b, okChar c = false) :
    sanitizeAux true (b ++ t) = sanitizeAux true t := by
  induction b with
  | nil => rfl
  | cons c b ih =>
    have hc : okChar c = false := hb c (List.mem_cons_self c b)
    simp only [List.cons_append, sanitizeAux, hc, if_true, if_false]
    exact ih (fun x hx => hb x (List.mem_cons_of_mem c hx))

theorem sanitizeAux_state (t : List Char)
    (ht : t = [] ∨ ∃ d t2, t = d :: t2 ∧ okChar d = true) :
    sanitizeAux true t = sanitizeAux false t := by
  rcases ht with rfl | ⟨d, t2, rfl, hd⟩
  · rfl
  · simp [sanitizeAux, hd]

/-! ## Claim C7 -/

/-- Claim C7 as stated is false: the source pattern
`[^A-Za-z0-9._-]+` collapses a whole run of disallowed characters into a
single underscore, so the two spaces of `"a  b"` become one `_`, not
two. -/
theorem c7_counterexample :
    String.mk (sanitize "a  b".toList) = "a_b" ∧
    String.mk (sanitizeSpecPerChar "a  b".toList) = "a__b" ∧
    sanitize "a  b".toList ≠ sanitizeSpecPerChar "a  b".toList := by
  refine ⟨by decide, by decide, by decide⟩

/-- Claim C7 amended: sanitization replaces every maximal run of
consecutive characters outside `[A-Za-z0-9._-]` with one underscore and
leaves characters inside the class unchanged. -/
theorem c7_amended_runs (g b t : List Char)
    (hg : ∀ c ∈ g, okChar c = true)
    (hb : ∀ c ∈ b, okChar c = false)
    (hbne : b ≠ [])
    (ht : t = [] ∨ ∃ d t2, t = d :: t2 ∧ okChar d = true) :
    sanitize (g ++ b ++ t) = g ++ '_' :: sanitize t := by
  rcases b with _ | ⟨c, bRest⟩
  · exact absurd rfl hbne
  · have hc : okChar c = false := hb c (List.mem_cons_self c bRest)
    have hskip := sanitizeAux_skip bRest t (fun x hx => hb x (List.mem_cons_of_mem c hx))
    have hstate := sanitizeAux_state t ht
    unfold sanitize
    rw [List.append_assoc, sanitizeAux_good g (c :: bRest ++ t) hg]
    simp [sanitizeAux, hc, hskip, hstate]

/-- Witness for `c7_amended_runs` at `"a" ++ "  " ++ "b"`. -/
theorem c7_amended_runs_witness :
    sanitize ("a".toList ++ [' ', ' '] ++ "b".toList) =
      "a".toList ++ '_' :: sanitize "b".toList := by
  exact c7_amended_runs "a".toList [' ', ' '] "b".toList (by decide) (by decide)
    (by decide) (Or.inr ⟨'b', [], by decide, by decide⟩)

/-! ## Claim C6 -/

/-- Claim C6 as stated is false: the source tests only record presence
(`if ps:` on a fontTools NameRecord is true whenever the record exists),
so a present PostScript record decoding to the empty string is used,
while the claim requires falling through to the Full Name record. -/
theorem c6_counterexample :
    chooseReal "S" [⟨6, 3, 1, 1033, ""⟩, ⟨4, 3, 1, 1033, "Foo"⟩] = "" ∧
    chooseRealSpecNE "S" [⟨6, 3, 1, 1033, ""⟩, ⟨4, 3, 1, 1033, "Foo"⟩] = "Foo" ∧
    chooseReal "S" [⟨6, 3, 1, 1033, ""⟩, ⟨4, 3, 1, 1033, "Foo"⟩] ≠
      chooseRealSpecNE "S" [⟨6, 3, 1, 1033, ""⟩, ⟨4, 3, 1, 1033, "Foo"⟩] := by
  refine ⟨by decide, by decide, by decide⟩

/-- Claim C6 amended: the canonical name follows the fixed precedence on
record presence alone — the Microsoft/Unicode-BMP/US-English PostScript
record whenever present (even when it decodes to the empty string), else
the Full Name record under the same keys whenever present, else the
synthesized `{container-stem}_unknown` fallback. -/
theorem c6_amended_precedence (stem : String) (recs : List NameRecord) :
    (∀ r, getName recs 6 3 1 1033 = some r → chooseReal stem recs = r.value) ∧
    (getName recs 6 3 1 1033 = none →
      ∀ r, getName recs 4 3 1 1033 = some r → chooseReal stem recs = r.value) ∧
    (getName recs 6 3 1 1033 = none → getName recs 4 3 1 1033 = none →
      chooseReal stem recs = stem ++ "_unknown") := by
  refine ⟨?_, ?_, ?_⟩
  · intro r h
    simp [chooseReal, h]
  · intro h6 r h4
    simp [chooseReal, h6, h4]
  · intro h6 h4
    simp [chooseReal, h6, h4]

/-- Witness for `c6_amended_precedence` on a concrete three-record
table. -/
theorem c6_amended_precedence_witness :
    chooseReal "S" [⟨1, 3, 1, 1033, "Fam"⟩, ⟨6, 3, 1, 1033, "PSName"⟩] = "PSName" := by
  exact (c6_amended_precedence "S"
    [⟨1, 3, 1, 1033, "Fam"⟩, ⟨6, 3, 1, 1033, "PSName"⟩]).1 ⟨6, 3, 1, 1033, "PSName"⟩
    (by decide)

/-! ## Claim C2 -/

/-- Claim C2 as stated is false: two distinct embedded fonts of the same
container, both lacking the PostScript and Full Name records, receive
the same output path `X_unknown.ttf` — there is no disambiguating
ordinal, so the second `font.save` overwrites the first. -/
theorem c2_counterexample :
    (⟨[]⟩ : EmbeddedFont) ≠ ⟨[⟨1, 3, 1, 1033, "Copyright"⟩]⟩ ∧
    splitPaths "X" [⟨[]⟩, ⟨[⟨1, 3, 1, 1033, "Copyright"⟩]⟩] =
      ["X_unknown.ttf", "X_unknown.ttf"] := by
  refine ⟨by decide, by decide⟩

/-- Claim C2 amended: any two embedded fonts of one container that both
lack the PostScript and Full Name records derive the same synthesized
output path, so the one split later overwrites the one split earlier. -/
theorem c2_amended_same_path (stem : String) (f g : EmbeddedFont)
    (hf6 : getName f.recs 6 3 1 1033 = none)
    (hf4 : getName f.recs 4 3 1 1033 = none)
    (hg6 : getName g.recs 6 3 1 1033 = none)
    (hg4 : getName g.recs 4 3 1 1033 = none) :
    outName stem f.recs = outName stem g.recs := by
  unfold outName chooseReal
  rw [hf6, hf4, hg6, hg4]

/-- Witness for `c2_amended_same_path` on two concrete record-less
fonts. -/
theorem c2_amended_same_path_witness :
    outName "X" ([] : List NameRecord) =
      outName "X" [⟨1, 3, 1, 1033, "Copyright"⟩] := by
  exact c2_amended_same_path "X" ⟨[]⟩ ⟨[⟨1, 3, 1, 1033, "Copyright"⟩]⟩
    (by decide) (by decide) (by decide) (by decide)

/-! ## Claim C9 -/

/-- Claim C9 as stated is false: two distinct raw file stems carrying the
same two-digit number are mapped to the same episode font workspace
`fonts_sub/E01`, which the two runs then share and both write. -/
theorem c9_counterexample :
    "ep 01 v1" ≠ "ep 01 v2" ∧
    episodeFontDir (guessEp "ep 01 v1") = episodeFontDir (guessEp "ep 01 v2") := by
  refine ⟨by decide, by decide⟩

/-- Claim C9 amended: workspaces are distinct exactly as far as the
guessed episode numbers are — raw files whose stems yield different
guessed numbers get distinct workspace directories, while files sharing a
guessed number (for example two versions of the same episode) share one
workspace. -/
theorem c9_amended_distinct (a b : String) (h : guessEp a ≠ guessEp b) :
    episodeFontDir (guessEp a) ≠ episodeFontDir (guessEp b) := by
  intro he
  apply h
  have hd := congrArg String.data he
  simp only [episodeFontDir, String.data_append] at hd
  exact String.ext (List.append_cancel_left hd)

/-- Witness for `c9_amended_distinct` at stems guessing 01 and 02. -/
theorem c9_amended_distinct_witness :
    episodeFontDir (guessEp "ep 01") ≠ episodeFontDir (guessEp "ep 02") := by
  exact c9_amended_distinct "ep 01" "ep 02" (by decide)

/-! ## Claim C10 -/

/-- Claim C10 confirmed: the used-font set and the `chars.txt` blob that
`process_one_episode` computes are functions of the shared subtitle
corpus alone — two episodes of the same run with the same corpus obtain
identical values, whatever their raw input files are. -/
theorem c10_shared_corpus (r1 r2 : String) (corpus : List (List Char)) :
    (processPrep r1 corpus).usedFonts = (processPrep r2 corpus).usedFonts ∧
    (processPrep r1 corpus).blob = (processPrep r2 corpus).blob :=
  ⟨rfl, rfl⟩

/-! ## Claim C1 -/

/-- Claim C1 as stated is false: with a pool of two matched fonts in
which the external tool fails on the first, `subset_fonts` raises at once
(`subprocess.run(..., check=True)`) — the second font, though matched and
viable, is never attempted and no artifact list with aggregated failures
is produced. -/
theorem c1_counterexample :
    subsetFonts (fun s => s != "AAA") ({"U"} : Finset String)
        [⟨"AAA", ".ttf", {"U"}⟩, ⟨"BBB", ".ttf", {"U"}⟩] = ([], some "AAA") ∧
    fontMatches ({"U"} : Finset String) ({"U"} : Finset String) = true ∧
    ("BBB" != "AAA") = true := by
  refine ⟨by decide, by decide, by decide⟩

/-- Claim C1 amended: a failure of the external subsetting tool on one
included font aborts the episode batch at that font — fonts later in the
sorted order are not attempted, and only this first failure is
propagated to the episode caller (the main loop catches it per episode,
so sibling episodes still proceed). -/
theorem c1_amended_abort (tool : String → Bool) (used : Finset String)
    (pre : List FontFile) (f : FontFile) (post : List FontFile)
    (hpre : (subsetFonts tool used pre).2 = none)
    (hadm : admissibleExt f.ext = true)
    (hm : fontMatches f.names used = true)
    (hf : tool f.stem = false) :
    subsetFonts tool used (pre ++ f :: post) =
      ((subsetFonts tool used pre).1, some f.stem) := by
  induction pre with
  | nil =>
    simp [subsetFonts, hadm, hm, hf]
  | cons g pre ih =>
    by_cases hga : admissibleExt g.ext = true
    · by_cases hgm : fontMatches g.names used = true
      · cases hgt : tool g.stem with
        | false =>
          exfalso
          simp [subsetFonts, hga, hgm, hgt] at hpre
        | true =>
          have hpre2 : (subsetFonts tool used pre).2 = none := by
            simpa [subsetFonts, hga, hgm, hgt] using hpre
          have ih2 := ih hpre2
          simp [subsetFonts, hga, hgm, hgt, ih2]
      · have hpre2 : (subsetFonts tool used pre).2 = none := by
          simpa [subsetFonts, hga, hgm] using hpre
        have ih2 := ih hpre2
        simp [subsetFonts, hga, hgm, ih2]
    · have hpre2 : (subsetFonts tool used pre).2 = none := by
        simpa [subsetFonts, hga] using hpre
      have ih2 := ih hpre2
      simp [subsetFonts, hga, ih2]

/-- Witness for `c1_amended_abort`: one successful font before the
failing one, one never-attempted font after it. -/
theorem c1_amended_abort_witness :
    subsetFonts (fun s => s != "AAA") ({"U"} : Finset String)
        ([⟨"GGG", ".ttf", {"U"}⟩] ++ ⟨"AAA", ".ttf", {"U"}⟩ :: [⟨"BBB", ".ttf", {"U"}⟩]) =
      ((subsetFonts (fun s => s != "AAA") ({"U"} : Finset String)
          [⟨"GGG", ".ttf", {"U"}⟩]).1, some "AAA") := by
  exact c1_amended_abort (fun s => s != "AAA") {"U"} [⟨"GGG", ".ttf", {"U"}⟩]
    ⟨"AAA", ".ttf", {"U"}⟩ [⟨"BBB", ".ttf", {"U"}⟩] (by decide) (by decide)
    (by decide) (by decide)

/-! ## Claim C3 -/

/-- Claim C3 confirmed: the match test of `subset_fonts` holds exactly
when the font's internal-name set and the used-font set intersect (exact
string membership), a disjoint font is skipped, and on a pool whose tool
calls all succeed a font's subset artifact is produced precisely when the
test holds. -/
theorem c3_resolver_iff (names used : Finset String) (f : FontFile)
    (tool : String → Bool)
    (hadm : admissibleExt f.ext = true) (htool : ∀ s, tool s = true) :
    (fontMatches names used = true ↔ (names ∩ used).Nonempty) ∧
    (names ∩ used = ∅ → fontMatches names used = false) ∧
    (subsetFonts tool used [f] =
      (if fontMatches f.names used = true then [f.stem ++ ".subset" ++ f.ext]
       else [], none)) := by
  have hiff : fontMatches names used = true ↔ (names ∩ used).Nonempty := by
    simp [fontMatches, Finset.Nonempty, Finset.mem_inter]
  refine ⟨hiff, ?_, ?_⟩
  · intro hempty
    cases hfm : fontMatches names used with
    | false => rfl
    | true =>
      exfalso
      rcases hiff.mp hfm with ⟨n, hn⟩
      rw [hempty] at hn
      exact absurd hn (Finset.not_mem_empty n)
  · cases hfm : fontMatches f.names used with
    | false => simp [subsetFonts, hadm, hfm]
    | true => simp [subsetFonts, hadm, hfm, htool f.stem]

/-- Witness for `c3_resolver_iff` on a concrete one-font pool sharing the
exact string `A` with the used set. -/
theorem c3_resolver_iff_witness :
    subsetFonts (fun _ => true) ({"A"} : Finset String) [⟨"F", ".ttf", {"A"}⟩] =
      (["F.subset.ttf"], none) := by
  have h := (c3_resolver_iff {"A"} {"A"} ⟨"F", ".ttf", {"A"}⟩ (fun _ => true)
    (by decide) (fun s => rfl)).2.2
  rw [h]
  decide

/-! ## Claim C4 -/

theorem mem_lineChars_acc (line : List Char) (acc : Finset Char) (x : Char)
    (h : x ∈ acc) : x ∈ lineChars line acc := by
  induction line with
  | nil => exact h
  | cons c rest ih =>
    simp only [lineChars, List.foldr_cons]
    by_cases h32 : 32 ≤ c.toNat
    · simp only [h32, if_true]
      exact Finset.mem_insert_of_mem ih
    · simp only [h32, if_false]
      exact ih

theorem mem_lineChars_self (line : List Char) (acc : Finset Char) (ch : Char)
    (h : ch ∈ line) (h32 : 32 ≤ ch.toNat) : ch ∈ lineChars line acc := by
  induction line with
  | nil => exact absurd h (List.not_mem_nil ch)
  | cons c rest ih =>
    simp only [lineChars, List.foldr_cons]
    rcases List.mem_cons.mp h with rfl | hmem
    · simp only [h32, if_true]
      exact Finset.mem_insert_self ch _
    · by_cases hc : 32 ≤ c.toNat
      · simp only [hc, if_true]
        exact Finset.mem_insert_of_mem (ih hmem)
      · simp only [hc, if_false]
        exact ih hmem

theorem mem_scanChars (lines : List (List Char)) (line : List Char) (ch : Char)
    (hl : line ∈ lines) (hc : ch ∈ line) (h32 : 32 ≤ ch.toNat) :
    ch ∈ scanChars lines := by
  induction lines with
  | nil => exact absurd hl (List.not_mem_nil line)
  | cons l ls ih =>
    simp only [scanChars]
    rcases List.mem_cons.mp hl with rfl | hmem
    · exact mem_lineChars_self line _ ch hc h32
    · exact mem_lineChars_acc l _ ch (ih hmem)

/-- Claim C4 confirmed: for every subtitle corpus, the glyph requirement
set contains the whole printable ASCII range 0x20-0x7E, contains every
observed character of code point at least 0x20, and is never empty. -/
theorem c4_glyph_floor (lines : List (List Char)) :
    asciiPrintable ⊆ collectChars lines ∧
    (∀ line ∈ lines, ∀ ch ∈ line, 32 ≤ ch.toNat → ch ∈ collectChars lines) ∧
    (collectChars lines).Nonempty := by
  refine ⟨Finset.subset_union_right, ?_, ?_⟩
  · intro line hl ch hc h32
    exact Finset.mem_union_left _ (mem_scanChars lines line ch hl hc h32)
  · refine ⟨' ', Finset.mem_union_right _ ?_⟩
    simp only [asciiPrintable, List.mem_toFinset, List.mem_map, List.mem_range]
    exact ⟨0, by decide, by decide⟩

/-- Witness for `c4_glyph_floor` on the one-line corpus holding a single
CJK character. -/
theorem c4_glyph_floor_witness :
    'A' ∈ collectChars [['你']] ∧ '你' ∈ collectChars [['你']] ∧
      (collectChars [['你']]).Nonempty := by
  have h := c4_glyph_floor [['你']]
  refine ⟨h.1 ?_, ?_, h.2.2⟩
  · simp only [asciiPrintable, List.mem_toFinset, List.mem_map, List.mem_range]
    exact ⟨33, by decide, by decide⟩
  · exact h.2.1 ['你'] (List.mem_singleton.mpr rfl) '你'
      (List.mem_singleton.mpr rfl) (by decide)

/-! ## Claim C5 -/

/-- Claim C5 confirmed: the serialized `chars.txt` blob lists its
characters strictly sorted by code point, and the collector is a
function of the corpus — identical subtitle input yields an identical
blob. -/
theorem c5_sorted_deterministic (l1 l2 : List (List Char)) (h : l1 = l2) :
    (charsBlobOf l1).Sorted (fun a b => a.toNat < b.toNat) ∧
    charsBlobOf l1 = charsBlobOf l2 := by
  refine ⟨?_, by rw [h]⟩
  have hs : (charsBlobOf l1).Sorted (fun a b => a < b) :=
    Finset.sort_sorted_lt (collectChars l1)
  exact List.Pairwise.imp (fun hab => hab) hs

/-- Witness for `c5_sorted_deterministic` on a concrete two-character
corpus. -/
theorem c5_sorted_deterministic_witness :
    (charsBlobOf ["ba".toList]).Sorted (fun a b => a.toNat < b.toNat) ∧
    charsBlobOf ["ba".toList] = charsBlobOf ["ba".toList] := by
  exact c5_sorted_deterministic ["ba".toList] ["ba".toList] rfl

/-! ## Claim C8 -/

theorem mem_extract_of_line (lines : List (List Char)) (line : List Char)
    (s : String) (hl : line ∈ lines) (hs : s ∈ lineFonts line) :
    s ∈ extractUsedFonts lines := by
  induction lines with
  | nil => exact absurd hl (List.not_mem_nil line)
  | cons l ls ih =>
    have hrw : extractUsedFonts (l :: ls) = lineFonts l ∪ extractUsedFonts ls := rfl
    rw [hrw]
    rcases List.mem_cons.mp hl with rfl | hmem
    · exact Finset.mem_union_left _ hs
    · exact Finset.mem_union_right _ (ih hmem)

theorem extract_sound (lines : List (List Char)) (s : String)
    (hs : s ∈ extractUsedFonts lines) : ∃ l2, l2 ∈ lines ∧ s ∈ lineFonts l2 := by
  induction lines with
  | nil => simp [extractUsedFonts] at hs
  | cons l ls ih =>
    have hrw : extractUsedFonts (l :: ls) = lineFonts l ∪ extractUsedFonts ls := rfl
    rw [hrw] at hs
    rcases Finset.mem_union.mp hs with h | h
    · exact ⟨l, List.mem_cons_self l ls, h⟩
    · obtain ⟨l2, hl2, hsl⟩ := ih h
      exact ⟨l2, List.mem_cons_of_mem l hl2, hsl⟩

theorem mem_lineFonts_fn (line : List Char) (arg : List Char)
    (h : arg ∈ fnArgs line) : String.mk (strip arg) ∈ lineFonts line := by
  apply Finset.mem_union_right
  simp only [List.mem_toFinset, List.mem_map]
  exact ⟨arg, h, rfl⟩

theorem mem_lineFonts_style (line : List Char) (arg : List Char)
    (h : styleArg line = some arg) : String.mk (strip arg) ∈ lineFonts line := by
  simp only [lineFonts, h]
  exact Finset.mem_union_left _ (Finset.mem_singleton_self _)

theorem styleArg_decomp (f1 f2 rest : List Char)
    (h1 : f1 ≠ []) (h1c : ∀ c ∈ f1, (c != ',') = true)
    (h2 : f2 ≠ []) (h2c : ∀ c ∈ f2, (c != ',') = true)
    (hrest : rest = [] ∨ ∃ t, rest = ',' :: t) :
    styleArg ("Style:".toList ++ (f1 ++ (',' :: (f2 ++ rest)))) = some f2 := by
  have hlen : ("Style:".toList : List Char).length = 6 := by decide
  have htake : ("Style:".toList ++ (f1 ++ (',' :: (f2 ++ rest)))).take 6 =
      "Style:".toList := List.take_left' hlen
  have hdrop : ("Style:".toList ++ (f1 ++ (',' :: (f2 ++ rest)))).drop 6 =
      f1 ++ (',' :: (f2 ++ rest)) := List.drop_left' hlen
  have hfld1 : (f1 ++ (',' :: (f2 ++ rest))).takeWhile (fun c => c != ',') = f1 :=
    takeWhile_append_all _ f1 _ h1c (Or.inr ⟨',', f2 ++ rest, rfl, by decide⟩)
  have hr1 : (f1 ++ (',' :: (f2 ++ rest))).dropWhile (fun c => c != ',') =
      ',' :: (f2 ++ rest) :=
    dropWhile_append_all _ f1 h1c (by decide)
  have hfld2 : (f2 ++ rest).takeWhile (fun c => c != ',') = f2 := by
    apply takeWhile_append_all _ f2 rest h2c
    rcases hrest with rfl | ⟨t, rfl⟩
    · exact Or.inl rfl
    · exact Or.inr ⟨',', t, rfl, by decide⟩
  obtain ⟨c1, f1t, rfl⟩ := List.exists_cons_of_ne_nil h1
  obtain ⟨c2, f2t, rfl⟩ := List.exists_cons_of_ne_nil h2
  simp only [styleArg, htake, hdrop, hfld1, hr1, hfld2, List.isEmpty_cons,
    if_pos rfl, Bool.false_eq_true, if_false]
  exact if_pos trivial

theorem fnArgsF_step_none (fuel : Nat) (c : Char) (rest : List Char)
    (hcond : ¬(c = '\\' ∧ rest.take 2 = ['f', 'n'])) :
    fnArgsF (fuel + 1) (c :: rest) = fnArgsF fuel rest := by
  rw [fnArgsF.eq_3, if_neg hcond]

theorem fnArgsF_step_empty (fuel : Nat) (c : Char) (rest : List Char)
    (hcond : c = '\\' ∧ rest.take 2 = ['f', 'n'])
    (hcap : (rest.drop 2).takeWhile goodFnChar = []) :
    fnArgsF (fuel + 1) (c :: rest) = fnArgsF fuel rest := by
  rw [fnArgsF.eq_3, if_pos hcond]
  simp [hcap]

theorem fnArgsF_step_cap (fuel : Nat) (c : Char) (rest cap : List Char)
    (hcond : c = '\\' ∧ rest.take 2 = ['f', 'n'])
    (hcap : (rest.drop 2).takeWhile goodFnChar = cap) (hne : cap ≠ []) :
    fnArgsF (fuel + 1) (c :: rest) =
      cap :: fnArgsF fuel ((rest.drop 2).drop cap.length) := by
  rw [fnArgsF.eq_3, if_pos hcond]
  simp only [hcap]
  rw [if_neg]
  simp [List.isEmpty_iff, hne]

theorem fnArgsF_occ :
    ∀ (fuel : Nat) (a name b : List Char),
      (a ++ ('\\' :: 'f' :: 'n' :: (name ++ b))).length ≤ fuel →
      (∀ c ∈ name, goodFnChar c = true) → name ≠ [] →
      (b = [] ∨ ∃ d t, b = d :: t ∧ goodFnChar d = false) →
      name ∈ fnArgsF fuel (a ++ ('\\' :: 'f' :: 'n' :: (name ++ b))) := by
  intro fuel
  induction fuel with
  | zero =>
    intro a name b hlen _ _ _
    exfalso
    simp [List.length_append] at hlen
  | succ fuel ih =>
    intro a name b hlen hgood hne hb
    cases a with
    | nil =>
      rw [List.nil_append]
      have hcap : ((('f' :: 'n' :: (name ++ b)) : List Char).drop 2).takeWhile goodFnChar
          = name := takeWhile_append_all _ name b hgood hb
      rw [fnArgsF_step_cap fuel '\\' ('f' :: 'n' :: (name ++ b)) name ⟨rfl, rfl⟩
        hcap hne]
      exact List.mem_cons_self _ _
    | cons x a2 =>
      have hlen2 : (a2 ++ ('\\' :: 'f' :: 'n' :: (name ++ b))).length ≤ fuel := by
        simp only [List.cons_append, List.length_cons] at hlen
        omega
      rw [List.cons_append]
      by_cases hcond : x = '\\' ∧
          (a2 ++ ('\\' :: 'f' :: 'n' :: (name ++ b))).take 2 = ['f', 'n']
      · match a2 with
        | [] =>
          exfalso
          exact absurd (show (['\\', 'f'] : List Char) = ['f', 'n'] from hcond.2)
            (by decide)
        | [y] =>
          exfalso
          have hx : ([y, '\\'] : List Char) = ['f', 'n'] := hcond.2
          injection hx with hx1 hx2
          injection hx2 with hx3 hx4
          exact absurd hx3 (by decide)
        | y :: z :: a3 =>
          have hcap : (((y :: z :: a3 ++ ('\\' :: 'f' :: 'n' :: (name ++ b))) :
                List Char).drop 2).takeWhile goodFnChar = a3.takeWhile goodFnChar :=
            takeWhile_append_bad goodFnChar a3 (by decide)
          cases hc3 : a3.takeWhile goodFnChar with
          | nil =>
            rw [fnArgsF_step_empty fuel x _ hcond (by rw [hcap, hc3])]
            exact ih (y :: z :: a3) name b hlen2 hgood hne hb
          | cons e cap3 =>
            have hk : (e :: cap3).length ≤ a3.length := by
              have hp : a3.takeWhile goodFnChar <+: a3 :=
                List.takeWhile_prefix goodFnChar
              have h := hp.length_le
              rw [hc3] at h
              exact h
            rw [fnArgsF_step_cap fuel x _ (e :: cap3) hcond (by rw [hcap, hc3])
              (by simp)]
            apply List.mem_cons_of_mem
            have hd2 : (((y :: z :: a3 ++ ('\\' :: 'f' :: 'n' :: (name ++ b))) :
                List Char).drop 2) = a3 ++ ('\\' :: 'f' :: 'n' :: (name ++ b)) := rfl
            rw [hd2, List.drop_append_of_le_length hk]
            apply ih (a3.drop (e :: cap3).length) name b _ hgood hne hb
            simp only [List.cons_append, List.length_cons, List.length_append,
              List.length_drop] at hlen ⊢
            omega
      · rw [fnArgsF_step_none fuel x _ hcond]
        exact ih a2 name b hlen2 hgood hne hb

theorem fnArgs_occ (a name b : List Char)
    (hgood : ∀ c ∈ name, goodFnChar c = true) (hne : name ≠ [])
    (hb : b = [] ∨ ∃ d t, b = d :: t ∧ goodFnChar d = false) :
    name ∈ fnArgs (a ++ ('\\' :: 'f' :: 'n' :: (name ++ b))) :=
  fnArgsF_occ _ a name b (Nat.le_refl _) hgood hne hb

/-- Claim C8 confirmed: a style-declaration line contributes exactly its
stripped second comma-delimited field, every inline `\fn` override
anywhere in a line contributes its stripped argument (even when no style
declares it), and everything in the extracted set arises from one of
those two per-line rules; names are kept verbatim in a set. -/
theorem c8_extractor (lines : List (List Char)) (line : List Char)
    (hline : line ∈ lines) :
    (∀ a name b, (∀ c ∈ name, goodFnChar c = true) → name ≠ [] →
        (b = [] ∨ ∃ d t, b = d :: t ∧ goodFnChar d = false) →
        line = a ++ ('\\' :: 'f' :: 'n' :: (name ++ b)) →
        String.mk (strip name) ∈ extractUsedFonts lines) ∧
    (∀ f1 f2 rest, f1 ≠ [] → (∀ c ∈ f1, (c != ',') = true) →
        f2 ≠ [] → (∀ c ∈ f2, (c != ',') = true) →
        (rest = [] ∨ ∃ t, rest = ',' :: t) →
        line = "Style:".toList ++ (f1 ++ (',' :: (f2 ++ rest))) →
        String.mk (strip f2) ∈ extractUsedFonts lines) ∧
    (∀ s ∈ extractUsedFonts lines, ∃ l2, l2 ∈ lines ∧ s ∈ lineFonts l2) := by
  refine ⟨?_, ?_, ?_⟩
  · intro a name b hg hne hb hdec
    subst hdec
    exact mem_extract_of_line lines _ _ hline
      (mem_lineFonts_fn _ name (fnArgs_occ a name b hg hne hb))
  · intro f1 f2 rest h1 h1c h2 h2c hr hdec
    subst hdec
    exact mem_extract_of_line lines _ _ hline
      (mem_lineFonts_style _ f2 (styleArg_decomp f1 f2 rest h1 h1c h2 h2c hr))
  · exact fun s hs => extract_sound lines s hs

/-- Witness for `c8_extractor`: the inline override
`{\fnNotoSansCJK-Bold}` alone puts `NotoSansCJK-Bold` into the used-font
set although no style declares it. -/
theorem c8_extractor_witness :
    "NotoSansCJK-Bold" ∈ extractUsedFonts ["\x7b\\fnNotoSansCJK-Bold\x7d".toList] := by
  have h := (c8_extractor ["\x7b\\fnNotoSansCJK-Bold\x7d".toList]
    "\x7b\\fnNotoSansCJK-Bold\x7d".toList (List.mem_singleton.mpr rfl)).1
    ['{'] "NotoSansCJK-Bold".toList ['}'] (by decide) (by decide)
    (Or.inr ⟨'}', [], rfl, by decide⟩) (by decide)
  have he : String.mk (strip "NotoSansCJK-Bold".toList) = "NotoSansCJK-Bold" := by
    decide
  rw [he] at h
  exact h

end GreenTea
